import Mathlib

/-!
# KBGit — verification of the versioning-graph specification

KBGit versions small units of textual knowledge ("blocks", `KBB`) the way a
source-control system versions files, with merges performed semantically by an
external Content Oracle.  The repository snapshot available here contains only
the README and the recorded example notebook; the Python implementation
(`kbgit/kb/block.py`, `kbgit/kb/doc.py`, `kbgit/llm.py`) is not part of the
snapshot, so every definition below is modelled from the specification text
(and the recorded notebook run), as indicated in each doc comment.
-/

namespace KBGit

/-- Modelled from the spec: `operation_kind` is one of
{create, edit, sum, subtract}, fixed at construction.
The Python sources defining the KBB class are missing from the snapshot. -/
inductive OpKind
  | create
  | edit
  | sum
  | subtract
deriving DecidableEq, Repr

/-- Modelled from the spec: a Block (`KBB`) is the unit of versioned knowledge,
with a globally unique immutable `block_id`, a `family_id` grouping successive
versions of the same fact slot, optional `content` (literal for create/edit at
construction, produced by `compute` for sum/subtract), the `operation_kind`,
the ordered `parent_ids`, a `created_at` timestamp, an optional `computed_at`
timestamp stamped by a successful `compute`, and an optional `message`.
Timestamps and identifiers are modelled as naturals drawn from counters of the
store.  The Python sources defining the KBB class are missing from the
snapshot. -/
structure Block where
  block_id : Nat
  family_id : Nat
  content : Option String
  operation_kind : OpKind
  parent_ids : List Nat
  created_at : Nat
  computed_at : Option Nat
  message : Option String
deriving DecidableEq, Repr

/-- Modelled from the spec: `status : {uncomputed, computed}` is derived from
the presence of `computed_at`. -/
def Block.isComputed (b : Block) : Bool :=
  b.computed_at.isSome

/-- A leaf node carries literal, author-authoritative content: its operation
kind is create or edit.  Derived (sum/subtract) nodes get their content from
the Content Oracle. -/
def Block.isLeaf (b : Block) : Bool :=
  b.operation_kind == OpKind.create || b.operation_kind == OpKind.edit

/-- Modelled from the spec's error taxonomy (section 7): `NotFoundError`,
`InvalidArityError`, `AlreadyComputedError`, `OracleError`. -/
inductive KBError
  | notFoundError
  | invalidArityError
  | alreadyComputedError
  | oracleError
deriving DecidableEq, Repr

/-- Modelled from the spec: the Content Oracle contract — given the operation
kind and the ordered list of parent inputs, each a text together with its
block's `computed_at` and `created_at` timestamps (the timestamps are what the
recency-priority rule reads), it returns merged text plus an optional conflict
annotation, or fails (`none`, surfaced as `OracleError`).  The oracle is an
external collaborator, not implemented in the repository. -/
def Oracle : Type :=
  OpKind → List (String × Nat × Nat) → Option (String × Option String)

/-- Modelled from the spec: the Block Store owns Block entities.  Blocks are
kept in creation order; `next_id` and `next_family` are the allocators for
fresh block and family identifiers, and `clock` is the logical time stamped
into `created_at` / `computed_at`.  The spec's design notes ask for the
implicit global registry to become an explicit store object. -/
structure Store where
  blocks : List Block
  next_id : Nat
  next_family : Nat
  clock : Nat
deriving DecidableEq, Repr

/-- The empty Block Store. -/
def Store.empty : Store :=
  ⟨[], 0, 0, 0⟩

/-- Look a block up by id. -/
def Store.find (s : Store) (i : Nat) : Option Block :=
  s.blocks.find? (fun b => b.block_id == i)

/-- Modelled from the spec: `create(content)` allocates a new id and a new
family id; `operation_kind = create`; `parent_ids = []`; status uncomputed
(the literal content is attached at construction; `compute` merely stamps
`computed_at`). -/
def Store.create (s : Store) (content : String) : Block × Store :=
  let b : Block :=
    ⟨s.next_id, s.next_family, some content, OpKind.create, [], s.clock, none, none⟩
  (b, ⟨s.blocks ++ [b], s.next_id + 1, s.next_family + 1, s.clock + 1⟩)

/-- Modelled from the spec: `edit(block, new_content)` requires the source
block to exist (`NotFoundError` otherwise); the new block shares the source's
`family_id`, has `parent_ids = [block.id]`, `operation_kind = edit`, and is
uncomputed with its literal content attached. -/
def Store.edit (s : Store) (i : Nat) (new_content : String) :
    Except KBError (Block × Store) :=
  match s.find i with
  | none => Except.error KBError.notFoundError
  | some src =>
    let b : Block :=
      ⟨s.next_id, src.family_id, some new_content, OpKind.edit, [i], s.clock, none, none⟩
    Except.ok (b, ⟨s.blocks ++ [b], s.next_id + 1, s.next_family, s.clock + 1⟩)

/-- Modelled from the spec: `sum(blocks)` fails with `InvalidArityError` if
fewer than two blocks are given; otherwise it allocates a new id and a new
family id, records the input ids in the given order as `parent_ids`, and the
block starts uncomputed.  (The spec passes a sequence of Blocks, which
necessarily exist; in this id-based model an unresolved id surfaces the
taxonomy's `NotFoundError`.) -/
def Store.sum (s : Store) (ids : List Nat) : Except KBError (Block × Store) :=
  if ids.length < 2 then Except.error KBError.invalidArityError
  else if ids.all (fun i => (s.find i).isSome) then
    let b : Block :=
      ⟨s.next_id, s.next_family, none, OpKind.sum, ids, s.clock, none, none⟩
    Except.ok (b, ⟨s.blocks ++ [b], s.next_id + 1, s.next_family + 1, s.clock + 1⟩)
  else Except.error KBError.notFoundError

/-- Modelled from the spec: `subtract(minuend, subtrahend)` allocates a new id
and a new family id, with `parent_ids = [minuend.id, subtrahend.id]` and
`operation_kind = subtract`, uncomputed.  (The spec passes Blocks, which
necessarily exist; in this id-based model an unresolved id surfaces the
taxonomy's `NotFoundError`.) -/
def Store.subtract (s : Store) (minuend subtrahend : Nat) :
    Except KBError (Block × Store) :=
  if (s.find minuend).isSome && (s.find subtrahend).isSome then
    let b : Block :=
      ⟨s.next_id, s.next_family, none, OpKind.subtract, [minuend, subtrahend], s.clock,
        none, none⟩
    Except.ok (b, ⟨s.blocks ++ [b], s.next_id + 1, s.next_family + 1, s.clock + 1⟩)
  else Except.error KBError.notFoundError

/-- Gather the oracle inputs for a derived block: for each parent id, its
computed content together with its `computed_at` and `created_at` timestamps;
`none` when a parent is missing or not yet computed. -/
def Store.parentInputs (s : Store) : List Nat → Option (List (String × Nat × Nat))
  | [] => some []
  | i :: rest =>
    match s.find i with
    | none => none
    | some b =>
      match b.content, b.computed_at with
      | some c, some t =>
        match s.parentInputs rest with
        | none => none
        | some l => some ((c, t, b.created_at) :: l)
      | _, _ => none

/-- Replace the block carrying `b.block_id` by `b` (in-place mutation of one
block record, as `compute` does). -/
def Store.setBlock (s : Store) (b : Block) : Store :=
  ⟨s.blocks.map (fun x => if x.block_id == b.block_id then b else x),
    s.next_id, s.next_family, s.clock⟩

/-- Modelled from the spec: `compute(block, message)` mutates the block in
place and returns it.  It fails with `NotFoundError` if the block is unknown
and with `AlreadyComputedError` if the status is already computed (computing
is single-shot per block).  For create/edit the content is already literal and
`compute` simply stamps `computed_at` and the message.  For sum/subtract it
invokes the Content Oracle with the ordered parent contents and timestamps
(failing with `NotFoundError` when a parent cannot supply computed content and
with `OracleError` when the external call fails); on success it sets
`content`, `computed_at` and `message`; the oracle's conflict annotation is a
non-fatal warning and is not recorded in the store. -/
def Store.compute (oracle : Oracle) (s : Store) (i : Nat) (msg : Option String) :
    Except KBError (Block × Store) :=
  match s.find i with
  | none => Except.error KBError.notFoundError
  | some b =>
    if b.computed_at.isSome then Except.error KBError.alreadyComputedError
    else if b.isLeaf then
      let b2 : Block := { b with computed_at := some s.clock, message := msg }
      Except.ok (b2, { s.setBlock b2 with clock := s.clock + 1 })
    else
      match s.parentInputs b.parent_ids with
      | none => Except.error KBError.notFoundError
      | some inputs =>
        match oracle b.operation_kind inputs with
        | none => Except.error KBError.oracleError
        | some (txt, _warning) =>
          let b2 : Block :=
            { b with content := some txt, computed_at := some s.clock, message := msg }
          Except.ok (b2, { s.setBlock b2 with clock := s.clock + 1 })

/-- The blocks of a family, in store (creation) order. -/
def Store.familyBlocks (s : Store) (f : Nat) : List Block :=
  s.blocks.filter (fun b => b.family_id == f)

/-- Modelled from the spec: `history_of_family(family_id)` returns all blocks
sharing the family, ordered by `created_at` ascending (the "node history",
rendered by `show_node_history`). -/
def Store.history_of_family (s : Store) (f : Nat) : List Block :=
  List.insertionSort (fun a b => a.created_at ≤ b.created_at) (s.familyBlocks f)

/-- The current version of a fact slot: the chronologically last block of the
family (used by `recompute` to substitute the up-to-date version of each leaf,
which is how an edit made deep in history propagates forward). -/
def Store.currentOfFamily (s : Store) (f : Nat) : Option Block :=
  (s.history_of_family f).getLast?

/-- Replay a list of parent nodes left to right with the one-node replayer
`f`, threading the store and collecting the ids of the replayed versions. -/
def replayMany (f : Store → Nat → Except KBError (Block × Store)) :
    Store → List Nat → Except KBError (List Nat × Store)
  | s, [] => Except.ok ([], s)
  | s, i :: rest =>
    match f s i with
    | Except.error e => Except.error e
    | Except.ok (b, s1) =>
      match replayMany f s1 rest with
      | Except.error e => Except.error e
      | Except.ok (bs, s2) => Except.ok (b.block_id :: bs, s2)

/-- Modelled from the spec: the replay engine behind `recompute`.  The
ancestor DAG is walked depth-first (parents before children, so the new blocks
appear in topological order); a leaf (create/edit) node is not recomputed —
the current version of its family is reused as-is, and no new block is
created for it; at a derived (sum/subtract) node the parents are replayed
first and then a fresh block (new id, same family as the original node) is
created over the replayed parents and computed through the Content Oracle.
`fuel` bounds the recursion depth (any bound larger than the DAG depth gives
the same result, since every parent predates its child). -/
def replay (oracle : Oracle) : Nat → Store → Nat → Except KBError (Block × Store)
  | 0, _, _ => Except.error KBError.notFoundError
  | fuel+1, s, i =>
    match s.find i with
    | none => Except.error KBError.notFoundError
    | some b =>
      if b.isLeaf then
        match s.currentOfFamily b.family_id with
        | none => Except.error KBError.notFoundError
        | some c => Except.ok (c, s)
      else
        match replayMany (fun st j => replay oracle fuel st j) s b.parent_ids with
        | Except.error e => Except.error e
        | Except.ok (newPs, s1) =>
          let nb : Block :=
            ⟨s1.next_id, b.family_id, none, b.operation_kind, newPs, s1.clock, none, none⟩
          let s2 : Store :=
            ⟨s1.blocks ++ [nb], s1.next_id + 1, s1.next_family, s1.clock + 1⟩
          Store.compute oracle s2 nb.block_id none

/-- Modelled from the spec: `recompute(block)` is valid only on a computed
block (the spec names no error for the precondition; the model surfaces
`NotFoundError`); it replays the block's entire ancestor DAG, producing a new
block chain (new ids) rather than mutating history, and returns the new
terminal block.  The fuel `s.next_id` dominates the DAG depth because every
parent's id is smaller than its child's. -/
def Store.recompute (oracle : Oracle) (s : Store) (i : Nat) :
    Except KBError (Block × Store) :=
  match s.find i with
  | none => Except.error KBError.notFoundError
  | some b =>
    if b.computed_at.isSome then replay oracle (s.next_id + 1) s i
    else Except.error KBError.notFoundError

/-- Modelled from the spec: a Document log entry's `operation` kind is one of
{sum, add, smart_add}. -/
inductive DocOp
  | sum
  | add
  | smart_add
deriving DecidableEq, Repr

/-- Modelled from the spec's log entry format: `operation`, the affected block
ids (`kbb`, used by add/smart_add), the resulting `block_refs` snapshot
(`kbbs_snapshot`), a timestamp (`tms`), and the parent document ids
(`parents_kbd`, used by sum). -/
structure LogEntry where
  operation : DocOp
  kbb : List Nat
  kbbs_snapshot : List Nat
  tms : Nat
  parents_kbd : List Nat
deriving DecidableEq, Repr

/-- Modelled from the spec: a Document (`KBD`) is an ordered, deduplicated
(by block id) sequence of block references plus an append-only operation
log.  It holds non-owning references (ids) into the Block Store, never block
content. -/
structure KBD where
  kbd_id : Nat
  block_refs : List Nat
  operations : List LogEntry
deriving DecidableEq, Repr

/-- Modelled from the spec: `new(blocks)` — `block_refs` are the deduplicated
ids preserving input order; the log starts empty (the genesis entry is
implicit, as in the recorded run, whose first log entry is the `sum`). -/
def KBD.new (doc_id : Nat) (blocks : List Block) : KBD :=
  ⟨doc_id, (blocks.map Block.block_id).dedup, []⟩

/-- Modelled from the spec: `sum(doc_a, doc_b)` — `block_refs` is the union of
both, `doc_a`'s refs first and then those of `doc_b` not already present;
one log entry `{operation: sum, snapshot, timestamp, parent document ids
[doc_a.id, doc_b.id]}` is appended to the fresh document's log. -/
def KBD.sumDoc (a b : KBD) (doc_id : Nat) (ts : Nat) : KBD :=
  let refs := a.block_refs ++ b.block_refs.filter (fun i => !(a.block_refs.contains i))
  ⟨doc_id, refs, [⟨DocOp.sum, [], refs, ts, [a.kbd_id, b.kbd_id]⟩]⟩

/-- Modelled from the spec: trivial `add(doc, block)` (in place) — fails with
`NotFoundError` if the block does not resolve in the Block Store; appends the
id to `block_refs` if not already present (idempotent no-op otherwise) and
always appends a log entry `{operation: add, block id, snapshot, timestamp}`.
It performs no dedup against semantically overlapping content: the decision
reads only the id, never the stored contents. -/
def KBD.addBlock (s : Store) (d : KBD) (i : Nat) (ts : Nat) : Except KBError KBD :=
  match s.find i with
  | none => Except.error KBError.notFoundError
  | some _ =>
    let refs := if d.block_refs.contains i then d.block_refs else d.block_refs ++ [i]
    Except.ok ⟨d.kbd_id, refs, d.operations ++ [⟨DocOp.add, [i], refs, ts, []⟩]⟩

/-- Modelled from the spec: the Similarity Index contract —
`find_overlaps(candidate_text, corpus)` returns the (ids of the) blocks of the
corpus judged semantically overlapping, possibly none.  External collaborator,
not implemented in the repository. -/
def SimilarityIndex : Type :=
  String → List Block → List Nat

/-- Modelled from the spec: `smart_add(doc, block)` — the new block is
registered in the Block Store and stamped; the Similarity Index is queried
with the new content against the document's current blocks; with no overlap it
behaves like `add`; otherwise each overlapping block is removed from
`block_refs` (not deleted from the Block Store), a merged block is formed as
the `sum` of the overlapping blocks and the new block and computed through the
Content Oracle, the merged id is appended, and a log entry
`{operation: smart_add, merged block id, snapshot, timestamp}` is appended. -/
def KBD.smartAdd (sim : SimilarityIndex) (oracle : Oracle) (s : Store) (d : KBD)
    (content : String) (ts : Nat) : Except KBError (KBD × Store) :=
  let corpus := d.block_refs.filterMap (fun i => s.find i)
  let p := s.create content
  match Store.compute oracle p.2 p.1.block_id none with
  | Except.error e => Except.error e
  | Except.ok (nb, s1) =>
    match sim content corpus with
    | [] =>
      let refs :=
        if d.block_refs.contains nb.block_id then d.block_refs
        else d.block_refs ++ [nb.block_id]
      Except.ok
        (⟨d.kbd_id, refs, d.operations ++ [⟨DocOp.add, [nb.block_id], refs, ts, []⟩]⟩, s1)
    | overlaps =>
      match Store.sum s1 (overlaps ++ [nb.block_id]) with
      | Except.error e => Except.error e
      | Except.ok (mb0, s2) =>
        match Store.compute oracle s2 mb0.block_id none with
        | Except.error e => Except.error e
        | Except.ok (mb, s3) =>
          let refs :=
            d.block_refs.filter (fun i => !(overlaps.contains i)) ++ [mb.block_id]
          Except.ok
            (⟨d.kbd_id, refs,
              d.operations ++ [⟨DocOp.smart_add, [mb.block_id], refs, ts, []⟩]⟩, s3)

/-- Modelled from the spec: the arity rule — `parent_ids` is empty for create,
has exactly one element for edit, two or more for sum, and exactly two for
subtract. -/
def arityOK (b : Block) : Bool :=
  match b.operation_kind with
  | OpKind.create => b.parent_ids.length == 0
  | OpKind.edit => b.parent_ids.length == 1
  | OpKind.sum => decide (2 ≤ b.parent_ids.length)
  | OpKind.subtract => b.parent_ids.length == 2

/-- Well-formedness of a Block Store, collecting the spec's data-model
invariants: block ids are below the allocator and pairwise distinct, family
ids are below the family allocator, every parent id is smaller than its
child's id (parents predate children, so provenance is a DAG) and resolves in
the store, a computed block carries content, a leaf (create/edit) block always
carries its literal content, and every block satisfies the arity rule. -/
def WF (s : Store) : Prop :=
  (∀ b ∈ s.blocks, b.block_id < s.next_id) ∧
  (List.map Block.block_id s.blocks).Nodup ∧
  (∀ b ∈ s.blocks, b.family_id < s.next_family) ∧
  (∀ b ∈ s.blocks, ∀ p ∈ b.parent_ids, p < b.block_id) ∧
  (∀ b ∈ s.blocks, ∀ p ∈ b.parent_ids, ∃ c ∈ s.blocks, c.block_id = p) ∧
  (∀ b ∈ s.blocks, b.computed_at.isSome = true → b.content.isSome = true) ∧
  (∀ b ∈ s.blocks,
    (b.operation_kind = OpKind.create ∨ b.operation_kind = OpKind.edit) →
      b.content.isSome = true) ∧
  (∀ b ∈ s.blocks, arityOK b = true)

instance (s : Store) : Decidable (WF s) := by
  unfold WF; infer_instance

/-- The stores reachable from the empty store through the Block Store
operations (and the store-changing part of the Document Store's smart add). -/
inductive Reaches : Store → Prop
  | empty : Reaches Store.empty
  | create (s : Store) (c : String) : Reaches s → Reaches (Store.create s c).2
  | edit (s : Store) (i : Nat) (c : String) (b : Block) (s' : Store) :
      Reaches s → Store.edit s i c = Except.ok (b, s') → Reaches s'
  | sum (s : Store) (ids : List Nat) (b : Block) (s' : Store) :
      Reaches s → Store.sum s ids = Except.ok (b, s') → Reaches s'
  | subtract (s : Store) (m n : Nat) (b : Block) (s' : Store) :
      Reaches s → Store.subtract s m n = Except.ok (b, s') → Reaches s'
  | compute (oracle : Oracle) (s : Store) (i : Nat) (msg : Option String)
      (b : Block) (s' : Store) :
      Reaches s → Store.compute oracle s i msg = Except.ok (b, s') → Reaches s'
  | recompute (oracle : Oracle) (s : Store) (i : Nat) (b : Block) (s' : Store) :
      Reaches s → Store.recompute oracle s i = Except.ok (b, s') → Reaches s'
  | smartAdd (sim : SimilarityIndex) (oracle : Oracle) (s : Store) (d : KBD)
      (content : String) (ts : Nat) (d' : KBD) (s' : Store) :
      Reaches s → KBD.smartAdd sim oracle s d content ts = Except.ok (d', s') →
      Reaches s'

/-- Modelled from the spec: an abstract semantic reading of a text as a list
of (slot, value) facts; two texts state contradicting facts when they assign
different values to the same slot.  (The spec's recency-priority rule is
stated about "facts" of texts; what counts as a fact is the Content Oracle's
business, so the extraction is a parameter here.) -/
def FactSem : Type :=
  String → List (String × String)

/-- The recency key of a block: (`computed_at`, `created_at`).  `laterKey p q`
means `p` is strictly later than `q` — later `computed_at`, ties broken by
later `created_at`. -/
def laterKey (p q : Nat × Nat) : Prop :=
  q.1 < p.1 ∨ (p.1 = q.1 ∧ q.2 < p.2)

instance (p q : Nat × Nat) : Decidable (laterKey p q) := by
  unfold laterKey; infer_instance

/-- Modelled from the spec: the recency-priority contract of the Content
Oracle on a two-block sum — when the two source texts disagree on a fact, the
text of the block with the later `computed_at` (ties broken by later
`created_at`) takes precedence: the merged text states the later block's value
for the contradicted slot and not the earlier one's. -/
def OracleRecency (sem : FactSem) (oracle : Oracle) : Prop :=
  ∀ x y txt w, oracle OpKind.sum [x, y] = some (txt, w) →
    ∀ slot vx vy, (slot, vx) ∈ sem x.1 → (slot, vy) ∈ sem y.1 → vx ≠ vy →
      (laterKey y.2 x.2 → (slot, vy) ∈ sem txt ∧ (slot, vx) ∉ sem txt) ∧
      (laterKey x.2 y.2 → (slot, vx) ∈ sem txt ∧ (slot, vy) ∉ sem txt)

/-- Postcondition of `replay` on one node (used by `recompute`): the store
only grows (the old blocks are untouched), well-formedness and the family
allocator are preserved, every appended block is a freshly numbered computed
derived (sum/subtract) block, the returned terminal belongs to the final store
and keeps the family of the replayed node; replaying a leaf appends nothing
and returns an already existing block; replaying a derived node returns a
fresh id of the same operation kind, computed. -/
def ReplayOut (s : Store) (i : Nat) (b' : Block) (s' : Store) : Prop :=
  ∃ b t, s.find i = some b ∧
    s'.blocks = s.blocks ++ t ∧ WF s' ∧
    s.next_id ≤ s'.next_id ∧ s'.next_family = s.next_family ∧
    (∀ x ∈ t, (x.operation_kind = OpKind.sum ∨ x.operation_kind = OpKind.subtract) ∧
      x.computed_at.isSome = true ∧ s.next_id ≤ x.block_id) ∧
    b' ∈ s'.blocks ∧ b'.family_id = b.family_id ∧
    ((b.operation_kind = OpKind.create ∨ b.operation_kind = OpKind.edit) →
      t = [] ∧ b' ∈ s.blocks) ∧
    ((b.operation_kind = OpKind.sum ∨ b.operation_kind = OpKind.subtract) →
      s.next_id ≤ b'.block_id ∧ b'.operation_kind = b.operation_kind ∧
      b'.computed_at.isSome = true)

/-- Postcondition of `replayMany` on a list of nodes. -/
def ManyOut (s : Store) (ids : List Nat) (out : List Nat) (s' : Store) : Prop :=
  ∃ t, s'.blocks = s.blocks ++ t ∧ WF s' ∧
    s.next_id ≤ s'.next_id ∧ s'.next_family = s.next_family ∧
    (∀ x ∈ t, (x.operation_kind = OpKind.sum ∨ x.operation_kind = OpKind.subtract) ∧
      x.computed_at.isSome = true ∧ s.next_id ≤ x.block_id) ∧
    out.length = ids.length ∧
    (∀ p ∈ out, ∃ c ∈ s'.blocks, c.block_id = p)

/-- Boolean version of `laterKey`. -/
def laterKeyB (p q : Nat × Nat) : Bool :=
  decide (laterKey p q)

/-- Text of block k1 in the recorded run. -/
def k1text : String := "UC Berkeley is founded in 2222."

/-- Text of block k6 in the recorded run. -/
def k6text : String :=
  "UC Berkeley is founded in 1868 and its mascot is Oski the Bear, who debuted in 1941."

/-- Merged text of the recorded run (the sum k10 = k1 + k3 + k6 states 1868). -/
def m1868 : String :=
  "UC Berkeley was founded in 1868. Its mascot, Oski the Bear, debuted in 1941."

/-- A merged text stating the earlier (contradicted) year. -/
def m2222 : String := "UC Berkeley was founded in 2222."

/-- A concrete fact extraction for the recorded texts: each of the four texts
above asserts a value for the slot "founded"; every other text asserts
nothing. -/
def demoSem : FactSem := fun t =>
  if t = k1text then [("founded", "2222")]
  else if t = k6text then [("founded", "1868")]
  else if t = m1868 then [("founded", "1868")]
  else if t = m2222 then [("founded", "2222")]
  else []

/-- The value a text asserts for the "founded" slot under `demoSem`. -/
def foundedOf (t : String) : Option String :=
  match demoSem t with
  | [] => none
  | (_, v) :: _ => some v

/-- A concrete Content Oracle obeying the recency-priority contract for
`demoSem`: on a two-input sum it resolves the "founded" slot in favour of the
input with the later (`computed_at`, `created_at`) key and emits the
corresponding canonical merged text. -/
def demoOracle : Oracle := fun k inputs =>
  match k, inputs with
  | OpKind.sum, [x, y] =>
    match foundedOf x.1, foundedOf y.1 with
    | some vx, some vy =>
      some ((if (if vx = vy then vx else if laterKeyB y.2 x.2 then vy else vx) = "1868"
        then m1868 else m2222), some "conflict")
    | some vx, none => some ((if vx = "1868" then m1868 else m2222), none)
    | none, some vy => some ((if vy = "1868" then m1868 else m2222), none)
    | none, none => some ("", none)
  | _, _ => some ("", none)

/-- A concrete Similarity Index: judges exactly the block with id 0 (when
present in the corpus) as overlapping. -/
def demoSim : SimilarityIndex := fun _ corpus =>
  (corpus.filter (fun b => b.block_id == 0)).map Block.block_id

/-- Recorded k1 as a store entry: created at 0, computed at 2. -/
def b1w : Block := ⟨0, 0, some k1text, OpKind.create, [], 0, some 2, none⟩

/-- Recorded k6 as a store entry: created at 1, computed at 3 (later than
k1 on both keys). -/
def b6w : Block := ⟨1, 1, some k6text, OpKind.create, [], 1, some 3, none⟩

/-- Concrete store carrying the two contradicting computed blocks of the
recorded run. -/
def sC1 : Store := ⟨[b1w, b6w], 2, 2, 4⟩

/-- A computed leaf "A". -/
def aW : Block := ⟨0, 0, some "A", OpKind.create, [], 0, some 1, none⟩

/-- A computed leaf "C". -/
def cW : Block := ⟨1, 1, some "C", OpKind.create, [], 0, some 2, none⟩

/-- A computed sum of the two leaves. -/
def dW : Block := ⟨2, 2, some "AC", OpKind.sum, [0, 1], 3, some 4, none⟩

/-- Concrete store with two computed leaves and a computed sum on top. -/
def sW : Store := ⟨[aW, cW, dW], 3, 3, 5⟩

/-- The sum of the recorded contradicting blocks, freshly constructed. -/
def nbW : Block := ⟨2, 2, none, OpKind.sum, [0, 1], 4, none, none⟩

/-- The store after constructing that sum. -/
def s1W : Store := ⟨[b1w, b6w, nbW], 3, 3, 5⟩

/-- The computed sum: content states 1868, the recency winner. -/
def nbW2 : Block := ⟨2, 2, some m1868, OpKind.sum, [0, 1], 4, some 5, none⟩

/-- The store after computing the sum. -/
def s2W : Store := ⟨[b1w, b6w, nbW2], 3, 3, 6⟩

/-- The terminal block returned by recomputing the sum dW: same family (2),
fresh id (3). -/
def k13W : Block := ⟨3, 2, some "", OpKind.sum, [0, 1], 5, some 6, none⟩

/-- The store after that recompute: the three original blocks untouched, the
replayed sum appended. -/
def sWr : Store := ⟨[aW, cW, dW, k13W], 4, 3, 7⟩

/-- An edit of leaf aW: same family 0. -/
def editWb : Block := ⟨3, 0, some "B", OpKind.edit, [0], 5, none, none⟩

/-- Store after that edit. -/
def editWs : Store := ⟨[aW, cW, dW, editWb], 4, 3, 6⟩

/-- A fresh sum block over the two leaves: fresh family 3. -/
def sumWb : Block := ⟨3, 3, none, OpKind.sum, [0, 1], 5, none, none⟩

/-- Store after that sum. -/
def sumWs : Store := ⟨[aW, cW, dW, sumWb], 4, 4, 6⟩

/-- A fresh subtract block: fresh family 3. -/
def subWb : Block := ⟨3, 3, none, OpKind.subtract, [2, 1], 5, none, none⟩

/-- Store after that subtract. -/
def subWs : Store := ⟨[aW, cW, dW, subWb], 4, 4, 6⟩

/-- The sum block after compute: family unchanged. -/
def compWb : Block := ⟨3, 3, some "", OpKind.sum, [0, 1], 5, some 6, none⟩

/-- Store after computing the sum block. -/
def compWs : Store := ⟨[aW, cW, dW, compWb], 4, 4, 7⟩

/-- An uncomputed created leaf. -/
def leafW : Block := ⟨0, 0, some "A", OpKind.create, [], 0, none, none⟩

/-- Store holding only the uncomputed leaf. -/
def s0W : Store := ⟨[leafW], 1, 1, 1⟩

/-- The leaf after its first (and only possible) compute. -/
def leafWc : Block := ⟨0, 0, some "A", OpKind.create, [], 0, some 1, none⟩

/-- Store after computing the leaf. -/
def s5W : Store := ⟨[leafWc], 1, 1, 2⟩

/-- A document over blocks 0 and 1. -/
def d1W : KBD := ⟨0, [0, 1], []⟩

/-- A document over blocks 1 and 2 (overlapping d1W on block 1). -/
def d2W : KBD := ⟨1, [1, 2], []⟩

/-- A document holding block 0 only. -/
def dAddW : KBD := ⟨0, [0], []⟩

/-- The document after adding block 1. -/
def dAddW1 : KBD := ⟨0, [0, 1], [⟨DocOp.add, [1], [0, 1], 5, []⟩]⟩

/-- The document after adding block 1 a second time: refs unchanged, log
grown. -/
def dAddW2 : KBD :=
  ⟨0, [0, 1], [⟨DocOp.add, [1], [0, 1], 5, []⟩, ⟨DocOp.add, [1], [0, 1], 6, []⟩]⟩

/-- A document over blocks 0 and 1 for the smart-add scenario. -/
def d9W : KBD := ⟨0, [0, 1], []⟩

/-- The new block created by the smart add. -/
def nb9W : Block := ⟨3, 3, some "new text", OpKind.create, [], 5, some 6, none⟩

/-- The merged block: sum of the overlapping block 0 and the new block. -/
def mb9W : Block := ⟨4, 4, some "", OpKind.sum, [0, 3], 7, some 8, none⟩

/-- The store after the smart add: block 0 still present. -/
def s9W : Store := ⟨[aW, cW, dW, nb9W, mb9W], 5, 5, 9⟩

/-- The document after the smart add: block 0 removed, merged block 4
appended, one smart_add log entry. -/
def d9Wr : KBD := ⟨0, [1, 4], [⟨DocOp.smart_add, [4], [1, 4], 7, []⟩]⟩

/-! ### Infrastructure lemmas -/

theorem list_find_of_mem {l : List Block} (hnd : (l.map Block.block_id).Nodup)
    {b : Block} (hb : b ∈ l) :
    l.find? (fun x => x.block_id == b.block_id) = some b := by
  induction l with
  | nil => cases hb
  | cons a t ih =>
    rw [List.map_cons, List.nodup_cons] at hnd
    rcases List.mem_cons.mp hb with rfl | hbt
    · exact List.find?_cons_of_pos _ (by simp)
    · have hne : ¬ a.block_id = b.block_id := by
        intro he
        exact hnd.1 (he ▸ List.mem_map_of_mem Block.block_id hbt)
      rw [List.find?_cons_of_neg _ (by simp [hne])]
      exact ih hnd.2 hbt

theorem find_mem {s : Store} {i : Nat} {b : Block} (h : s.find i = some b) :
    b ∈ s.blocks ∧ b.block_id = i := by
  refine ⟨List.mem_of_find?_eq_some h, ?_⟩
  have := List.find?_some h
  simpa using this

theorem find_of_mem {s : Store} (hnd : (s.blocks.map Block.block_id).Nodup)
    {b : Block} (hb : b ∈ s.blocks) : s.find b.block_id = some b :=
  list_find_of_mem hnd hb

theorem find_append_left {l t : List Block} {i : Nat} {b : Block}
    (h : l.find? (fun x => x.block_id == i) = some b) :
    (l ++ t).find? (fun x => x.block_id == i) = some b := by
  rw [List.find?_append, h]; rfl

theorem find_append_fresh {l : List Block} {n : Nat} {nb : Block}
    (hlt : ∀ x ∈ l, x.block_id < n) (hid : nb.block_id = n) :
    (l ++ [nb]).find? (fun x => x.block_id == n) = some nb := by
  rw [List.find?_append]
  have h1 : l.find? (fun x => x.block_id == n) = none := by
    rw [List.find?_eq_none]
    intro x hx
    simp only [beq_iff_eq]
    exact Nat.ne_of_lt (hlt x hx)
  rw [h1]
  simp [hid]

theorem map_replace_id (l : List Block) (b2 : Block) :
    List.map Block.block_id
      (l.map (fun x => if x.block_id == b2.block_id then b2 else x)) =
      List.map Block.block_id l := by
  rw [List.map_map]
  apply List.map_congr_left
  intro x _
  by_cases h : x.block_id = b2.block_id
  · simp [Function.comp, h]
  · simp [Function.comp, h]

theorem find_map_replace_self {l : List Block} {i : Nat} {b b2 : Block}
    (hb2 : b2.block_id = i)
    (h : l.find? (fun x => x.block_id == i) = some b) :
    (l.map (fun x => if x.block_id == b2.block_id then b2 else x)).find?
      (fun x => x.block_id == i) = some b2 := by
  induction l with
  | nil => cases h
  | cons a t ih =>
    by_cases ha : a.block_id = i
    · rw [List.map_cons, if_pos (by simp [ha, hb2])]
      exact List.find?_cons_of_pos _ (by simp [hb2])
    · rw [List.find?_cons_of_neg _ (by simp [ha])] at h
      rw [List.map_cons, if_neg (by simp [ha, hb2]),
        List.find?_cons_of_neg _ (by simp [ha])]
      exact ih h

theorem find_map_replace_ne {l : List Block} {j : Nat} {b2 : Block}
    (hne : b2.block_id ≠ j) :
    (l.map (fun x => if x.block_id == b2.block_id then b2 else x)).find?
      (fun x => x.block_id == j) = l.find? (fun x => x.block_id == j) := by
  induction l with
  | nil => rfl
  | cons a t ih =>
    by_cases hr : a.block_id = b2.block_id
    · rw [List.map_cons, if_pos (by simp [hr])]
      rw [List.find?_cons_of_neg _ (by simp [hne]),
        List.find?_cons_of_neg _ (by simp [hr ▸ hne])]
      exact ih
    · rw [List.map_cons, if_neg (by simp [hr])]
      by_cases hj : a.block_id = j
      · rw [List.find?_cons_of_pos _ (by simp [hj]),
          List.find?_cons_of_pos _ (by simp [hj])]
      · rw [List.find?_cons_of_neg _ (by simp [hj]),
          List.find?_cons_of_neg _ (by simp [hj])]
        exact ih

theorem mem_map_replace_of_ne {l : List Block} {x b2 : Block}
    (hx : x ∈ l) (hne : x.block_id ≠ b2.block_id) :
    x ∈ l.map (fun y => if y.block_id == b2.block_id then b2 else y) :=
  List.mem_map.mpr ⟨x, hx, by simp [hne]⟩

theorem mem_map_replace {l : List Block} {y b2 : Block}
    (hy : y ∈ l.map (fun x => if x.block_id == b2.block_id then b2 else x)) :
    y = b2 ∨ y ∈ l := by
  rcases List.mem_map.mp hy with ⟨x, hx, hxy⟩
  by_cases h : x.block_id = b2.block_id
  · left; rw [← hxy]; simp [h]
  · right; rw [← hxy]; simpa [h] using hx

theorem map_replace_append_last {l : List Block} {nb b2 : Block}
    (hid : nb.block_id = b2.block_id)
    (hfresh : ∀ x ∈ l, x.block_id ≠ b2.block_id) :
    (l ++ [nb]).map (fun x => if x.block_id == b2.block_id then b2 else x) =
      l ++ [b2] := by
  rw [List.map_append]
  congr 1
  · have : l.map (fun x => if x.block_id == b2.block_id then b2 else x) =
        l.map id := by
      apply List.map_congr_left
      intro x hx
      simp [hfresh x hx]
    rw [this, List.map_id]
  · simp [hid]

theorem arityOK_congr {a b : Block} (hop : a.operation_kind = b.operation_kind)
    (hpar : a.parent_ids = b.parent_ids) : arityOK a = arityOK b := by
  unfold arityOK
  rw [hop, hpar]

theorem compute_ok {oracle : Oracle} {s : Store} {i : Nat} {msg : Option String}
    {b' : Block} {s' : Store}
    (h : Store.compute oracle s i msg = Except.ok (b', s')) :
    ∃ b, s.find i = some b ∧ b.computed_at = none ∧
      b'.block_id = b.block_id ∧ b'.family_id = b.family_id ∧
      b'.operation_kind = b.operation_kind ∧ b'.parent_ids = b.parent_ids ∧
      b'.created_at = b.created_at ∧ b'.computed_at = some s.clock ∧
      (b.isLeaf = true → b'.content = b.content) ∧
      (b.isLeaf = false → b'.content.isSome = true) ∧
      s' = { s.setBlock b' with clock := s.clock + 1 } := by
  unfold Store.compute at h
  split at h
  · cases h
  rename_i b hfind
  split at h
  · cases h
  rename_i hc
  split at h
  · rename_i hl
    simp only [Except.ok.injEq, Prod.mk.injEq] at h
    obtain ⟨hb, hs⟩ := h
    subst hb
    refine ⟨b, hfind, ?_, by simp, by simp, by simp, by simp, by simp, by simp,
      fun _ => by simp, fun hnl => by rw [hl] at hnl; exact Bool.noConfusion hnl,
      hs.symm⟩
    cases hcomp : b.computed_at with
    | none => rfl
    | some t => rw [hcomp] at hc; simp at hc
  · rename_i hl
    split at h
    · cases h
    rename_i inputs hpi
    split at h
    · cases h
    rename_i v txt w ho
    simp only [Except.ok.injEq, Prod.mk.injEq] at h
    obtain ⟨hb, hs⟩ := h
    subst hb
    refine ⟨b, hfind, ?_, by simp, by simp, by simp, by simp, by simp, by simp,
      fun hleaf => absurd hleaf hl, fun _ => by simp, hs.symm⟩
    cases hcomp : b.computed_at with
    | none => rfl
    | some t => rw [hcomp] at hc; simp at hc

theorem WF_setBlock {s : Store} {b b2 : Block} {c : Nat} (hwf : WF s)
    (hfind : s.find b2.block_id = some b)
    (hfam : b2.family_id = b.family_id)
    (hpar : b2.parent_ids = b.parent_ids)
    (hop : b2.operation_kind = b.operation_kind)
    (hcc : b2.computed_at.isSome = true → b2.content.isSome = true)
    (hlc : (b2.operation_kind = OpKind.create ∨ b2.operation_kind = OpKind.edit) →
      b2.content.isSome = true) :
    WF { s.setBlock b2 with clock := c } := by
  obtain ⟨h1, h2, h3, h4, h5, h6, h7, h8⟩ := hwf
  obtain ⟨hbmem, hbid⟩ := find_mem hfind
  have hb2mem : b2 ∈ (s.setBlock b2).blocks :=
    List.mem_map.mpr ⟨b, hbmem, by simp [hbid]⟩
  have hmemtrans : ∀ p, (∃ x ∈ s.blocks, x.block_id = p) →
      ∃ x ∈ (s.setBlock b2).blocks, x.block_id = p := by
    rintro p ⟨x, hx, hxp⟩
    by_cases hxe : x.block_id = b2.block_id
    · exact ⟨b2, hb2mem, by rw [← hxe, hxp]⟩
    · exact ⟨x, mem_map_replace_of_ne hx hxe, hxp⟩
  have hcases : ∀ y ∈ (s.setBlock b2).blocks, y = b2 ∨ y ∈ s.blocks := by
    intro y hy
    exact mem_map_replace hy
  unfold WF
  simp only [Store.setBlock] at hb2mem hmemtrans hcases ⊢
  refine ⟨?_, ?_, ?_, ?_, ?_, ?_, ?_, ?_⟩
  · intro y hy
    rcases hcases y hy with rfl | hmem
    · rw [← hbid]; exact h1 b hbmem
    · exact h1 y hmem
  · rw [map_replace_id]; exact h2
  · intro y hy
    rcases hcases y hy with rfl | hmem
    · rw [hfam]; exact h3 b hbmem
    · exact h3 y hmem
  · intro y hy
    rcases hcases y hy with rfl | hmem
    · rw [hpar, ← hbid]; exact h4 b hbmem
    · exact h4 y hmem
  · intro y hy p hp
    rcases hcases y hy with rfl | hmem
    · exact hmemtrans p (h5 b hbmem p (hpar ▸ hp))
    · exact hmemtrans p (h5 y hmem p hp)
  · intro y hy
    rcases hcases y hy with rfl | hmem
    · exact hcc
    · exact h6 y hmem
  · intro y hy
    rcases hcases y hy with rfl | hmem
    · exact hlc
    · exact h7 y hmem
  · intro y hy
    rcases hcases y hy with rfl | hmem
    · rw [arityOK_congr hop hpar]; exact h8 b hbmem
    · exact h8 y hmem

theorem WF_append {s : Store} {nb : Block} {nf c : Nat} (hwf : WF s)
    (hid : nb.block_id = s.next_id)
    (hpm : ∀ p ∈ nb.parent_ids, ∃ x ∈ s.blocks, x.block_id = p)
    (hfam : nb.family_id < nf) (hnf : s.next_family ≤ nf)
    (hcomp : nb.computed_at = none)
    (hlc : (nb.operation_kind = OpKind.create ∨ nb.operation_kind = OpKind.edit) →
      nb.content.isSome = true)
    (har : arityOK nb = true) :
    WF ⟨s.blocks ++ [nb], s.next_id + 1, nf, c⟩ := by
  obtain ⟨h1, h2, h3, h4, h5, h6, h7, h8⟩ := hwf
  have hcases : ∀ y : Block, y ∈ s.blocks ++ [nb] → y ∈ s.blocks ∨ y = nb := by
    intro y hy
    rcases List.mem_append.mp hy with hm | hm
    · exact Or.inl hm
    · exact Or.inr (List.mem_singleton.mp hm)
  unfold WF
  refine ⟨?_, ?_, ?_, ?_, ?_, ?_, ?_, ?_⟩
  · intro y hy
    rcases hcases y hy with hm | rfl
    · exact Nat.lt_succ_of_lt (h1 y hm)
    · rw [hid]; exact Nat.lt_succ_self _
  · rw [List.map_append]
    simp only [List.map_cons, List.map_nil]
    rw [List.nodup_append]
    refine ⟨h2, List.nodup_singleton _, ?_⟩
    intro a ha
    simp only [List.mem_singleton]
    intro he
    rcases List.mem_map.mp ha with ⟨x, hx, hxa⟩
    rw [he, hid] at hxa
    exact Nat.ne_of_lt (h1 x hx) hxa
  · intro y hy
    rcases hcases y hy with hm | rfl
    · exact Nat.lt_of_lt_of_le (h3 y hm) hnf
    · exact hfam
  · intro y hy p hp
    rcases hcases y hy with hm | rfl
    · exact h4 y hm p hp
    · obtain ⟨x, hx, hxp⟩ := hpm p hp
      rw [hid, ← hxp]
      exact h1 x hx
  · intro y hy p hp
    rcases hcases y hy with hm | rfl
    · obtain ⟨x, hx, hxp⟩ := h5 y hm p hp
      exact ⟨x, List.mem_append_left _ hx, hxp⟩
    · obtain ⟨x, hx, hxp⟩ := hpm p hp
      exact ⟨x, List.mem_append_left _ hx, hxp⟩
  · intro y hy
    rcases hcases y hy with hm | rfl
    · exact h6 y hm
    · rw [hcomp]; intro hf; cases hf
  · intro y hy
    rcases hcases y hy with hm | rfl
    · exact h7 y hm
    · exact hlc
  · intro y hy
    rcases hcases y hy with hm | rfl
    · exact h8 y hm
    · exact har

theorem isLeaf_iff {b : Block} :
    b.isLeaf = true ↔
      (b.operation_kind = OpKind.create ∨ b.operation_kind = OpKind.edit) := by
  unfold Block.isLeaf
  cases b.operation_kind <;> simp

theorem compute_post {oracle : Oracle} {s : Store} {i : Nat} {msg : Option String}
    {b' : Block} {s' : Store} (hwf : WF s)
    (h : Store.compute oracle s i msg = Except.ok (b', s')) :
    WF s' ∧ s'.next_id = s.next_id ∧ s'.next_family = s.next_family ∧
      List.map Block.block_id s'.blocks = List.map Block.block_id s.blocks ∧
      s'.find i = some b' ∧ b' ∈ s'.blocks ∧
      (∀ j, j ≠ i → s'.find j = s.find j) := by
  obtain ⟨b, hfind, hbc, hid, hfam, hop, hpar, hcr, hca, hlf, hnlf, hs⟩ :=
    compute_ok h
  obtain ⟨hbmem, hbid⟩ := find_mem hfind
  have hbi : b'.block_id = i := by rw [hid, hbid]
  have hfind2 : s.find b'.block_id = some b := by rw [hbi]; exact hfind
  have hcontent : b'.content.isSome = true := by
    by_cases hl : b.isLeaf = true
    · rw [hlf hl]
      exact hwf.2.2.2.2.2.2.1 b hbmem (isLeaf_iff.mp hl)
    · exact hnlf (Bool.eq_false_iff.mpr hl)
  subst hs
  refine ⟨?_, by simp [Store.setBlock], by simp [Store.setBlock], ?_, ?_, ?_, ?_⟩
  · exact WF_setBlock hwf hfind2 hfam hpar hop (fun _ => hcontent)
      (fun _ => hcontent)
  · simp only [Store.setBlock]
    exact map_replace_id s.blocks b'
  · show (s.blocks.map _).find? _ = some b'
    exact find_map_replace_self hbi hfind
  · have : ({ s.setBlock b' with clock := s.clock + 1 } : Store).find i = some b' := by
      show (s.blocks.map _).find? _ = some b'
      exact find_map_replace_self hbi hfind
    exact (find_mem this).1
  · intro j hj
    show (s.blocks.map _).find? _ = s.find j
    exact find_map_replace_ne (by rw [hbi]; exact fun he => hj he.symm)

theorem WF_create {s : Store} (hwf : WF s) (c : String) :
    WF (Store.create s c).2 := by
  refine WF_append hwf rfl ?_ (Nat.lt_succ_self _) (Nat.le_succ _) rfl
    (fun _ => rfl) (by unfold arityOK; rfl)
  intro p hp
  cases hp

theorem WF_edit {s : Store} {i : Nat} {c : String} {b : Block} {s' : Store}
    (hwf : WF s) (h : Store.edit s i c = Except.ok (b, s')) :
    WF s' := by
  unfold Store.edit at h
  split at h
  · cases h
  rename_i src hfind
  simp only [Except.ok.injEq, Prod.mk.injEq] at h
  obtain ⟨hb, hs⟩ := h
  subst hb
  obtain ⟨hsm, hsi⟩ := find_mem hfind
  rw [← hs]
  refine WF_append hwf rfl ?_ (hwf.2.2.1 src hsm) (Nat.le_refl _) rfl
    (fun _ => rfl) (by unfold arityOK; rfl)
  intro p hp
  rcases List.mem_singleton.mp hp with rfl
  exact ⟨src, hsm, hsi⟩

theorem WF_sum {s : Store} {ids : List Nat} {b : Block} {s' : Store}
    (hwf : WF s) (h : Store.sum s ids = Except.ok (b, s')) :
    WF s' := by
  unfold Store.sum at h
  split at h
  · cases h
  rename_i hlen
  split at h
  swap
  · cases h
  rename_i hall
  simp only [Except.ok.injEq, Prod.mk.injEq] at h
  obtain ⟨hb, hs⟩ := h
  subst hb
  rw [← hs]
  refine WF_append hwf rfl ?_ (Nat.lt_succ_self _) (Nat.le_succ _) rfl
    (by intro hor; rcases hor with hor | hor <;> cases hor) ?_
  · intro p hp
    have := (List.all_eq_true.mp hall) p hp
    cases hfp : s.find p with
    | none => rw [hfp] at this; cases this
    | some x => exact ⟨x, (find_mem hfp).1, (find_mem hfp).2⟩
  · unfold arityOK
    simp only []
    rw [Nat.not_lt] at hlen
    exact decide_eq_true hlen

theorem WF_subtract {s : Store} {m n : Nat} {b : Block} {s' : Store}
    (hwf : WF s) (h : Store.subtract s m n = Except.ok (b, s')) :
    WF s' := by
  unfold Store.subtract at h
  split at h
  swap
  · cases h
  rename_i hok
  rw [Bool.and_eq_true] at hok
  simp only [Except.ok.injEq, Prod.mk.injEq] at h
  obtain ⟨hb, hs⟩ := h
  subst hb
  rw [← hs]
  refine WF_append hwf rfl ?_ (Nat.lt_succ_self _) (Nat.le_succ _) rfl
    (by intro hor; rcases hor with hor | hor <;> cases hor)
    (by unfold arityOK; rfl)
  intro p hp
  rcases List.mem_cons.mp hp with rfl | hp2
  · cases hfm : s.find p with
    | none => rw [hfm] at hok; simp at hok
    | some x => exact ⟨x, (find_mem hfm).1, (find_mem hfm).2⟩
  rcases List.mem_singleton.mp hp2 with rfl
  cases hfn : s.find p with
  | none => rw [hfn] at hok; simp at hok
  | some x => exact ⟨x, (find_mem hfn).1, (find_mem hfn).2⟩

theorem notLeaf_derived {b : Block} (h : ¬ b.isLeaf = true) :
    b.operation_kind = OpKind.sum ∨ b.operation_kind = OpKind.subtract := by
  cases hk : b.operation_kind
  · exact absurd (isLeaf_iff.mpr (Or.inl hk)) h
  · exact absurd (isLeaf_iff.mpr (Or.inr hk)) h
  · exact Or.inl rfl
  · exact Or.inr rfl

theorem arityOK_len {a b : Block} (hop : a.operation_kind = b.operation_kind)
    (hlen : a.parent_ids.length = b.parent_ids.length) :
    arityOK a = arityOK b := by
  cases hk : b.operation_kind <;> simp [arityOK, hop, hk, hlen]

theorem history_mem {s : Store} {f : Nat} {b : Block} :
    b ∈ s.history_of_family f ↔ (b ∈ s.blocks ∧ b.family_id = f) := by
  unfold Store.history_of_family
  rw [(List.perm_insertionSort _ _).mem_iff]
  unfold Store.familyBlocks
  rw [List.mem_filter]
  simp

theorem currentOfFamily_mem {s : Store} {f : Nat} {c : Block}
    (h : s.currentOfFamily f = some c) : c ∈ s.blocks ∧ c.family_id = f := by
  unfold Store.currentOfFamily at h
  obtain ⟨ys, hys⟩ := List.getLast?_eq_some_iff.mp h
  have : c ∈ s.history_of_family f := by
    rw [hys]
    exact List.mem_append_right _ (List.mem_singleton_self _)
  exact history_mem.mp this

theorem replayMany_spec_of (f : Store → Nat → Except KBError (Block × Store))
    (hr : ∀ s i b' s', WF s → f s i = Except.ok (b', s') →
      ReplayOut s i b' s') :
    ∀ ids s out s', WF s → replayMany f s ids = Except.ok (out, s') →
      ManyOut s ids out s' := by
  intro ids
  induction ids with
  | nil =>
    intro s out s' hwf h
    unfold replayMany at h
    simp only [Except.ok.injEq, Prod.mk.injEq] at h
    obtain ⟨hout, hs⟩ := h
    subst hout
    subst hs
    exact ⟨[], by simp, hwf, Nat.le_refl _, rfl, (by intro x hx; cases hx), rfl,
      (by intro p hp; cases hp)⟩
  | cons a rest ih =>
    intro s out s' hwf h
    unfold replayMany at h
    split at h
    · cases h
    rename_i b s1 hre
    split at h
    · cases h
    rename_i bs s2 hrm
    simp only [Except.ok.injEq, Prod.mk.injEq] at h
    obtain ⟨hout, hs⟩ := h
    subst hout
    subst hs
    obtain ⟨b0, t1, hfind1, hblocks1, hwf1, hle1, hnf1, ht1, hbmem1, hbfam1,
      hleaf1, hder1⟩ := hr s a b s1 hwf hre
    obtain ⟨t2, hblocks2, hwf2, hle2, hnf2, ht2, hlen2, hres2⟩ :=
      ih s1 bs s2 hwf1 hrm
    refine ⟨t1 ++ t2, ?_, hwf2, Nat.le_trans hle1 hle2, by rw [hnf2, hnf1], ?_,
      by simp [hlen2], ?_⟩
    · rw [hblocks2, hblocks1, List.append_assoc]
    · intro x hx
      rcases List.mem_append.mp hx with hx1 | hx2
      · exact ht1 x hx1
      · obtain ⟨hd, hc, hi⟩ := ht2 x hx2
        exact ⟨hd, hc, Nat.le_trans hle1 hi⟩
    · intro p hp
      rcases List.mem_cons.mp hp with rfl | hp2
      · refine ⟨b, ?_, rfl⟩
        rw [hblocks2]
        exact List.mem_append_left _ hbmem1
      · exact hres2 p hp2

theorem replay_spec_succ (oracle : Oracle) (fuel : Nat)
    (hmany : ∀ ids s out s', WF s →
      replayMany (fun st j => replay oracle fuel st j) s ids = Except.ok (out, s') →
      ManyOut s ids out s') :
    ∀ s i b' s', WF s → replay oracle (fuel + 1) s i = Except.ok (b', s') →
      ReplayOut s i b' s' := by
  intro s i b' s' hwf h
  unfold replay at h
  split at h
  · cases h
  rename_i b hfind
  split at h
  · rename_i hl
    split at h
    · cases h
    rename_i c hcur
    simp only [Except.ok.injEq, Prod.mk.injEq] at h
    obtain ⟨hb, hs⟩ := h
    subst hb
    subst hs
    obtain ⟨hcmem, hcfam⟩ := currentOfFamily_mem hcur
    refine ⟨b, [], hfind, by simp, hwf, Nat.le_refl _, rfl,
      (by intro x hx; cases hx), hcmem, hcfam, fun _ => ⟨rfl, hcmem⟩, ?_⟩
    intro hder
    rcases hder with h1 | h1 <;> rcases isLeaf_iff.mp hl with h2 | h2 <;>
      rw [h1] at h2 <;> cases h2
  · rename_i hl
    split at h
    · cases h
    rename_i out s1 hrm
    obtain ⟨t1, hblocks1, hwf1, hle1, hnf1, ht1, hlen1, hres1⟩ :=
      hmany b.parent_ids s out s1 hwf hrm
    have hbmem := (find_mem hfind).1
    have hwf2 : WF ⟨s1.blocks ++
        [⟨s1.next_id, b.family_id, none, b.operation_kind, out, s1.clock, none, none⟩],
        s1.next_id + 1, s1.next_family, s1.clock + 1⟩ := by
      refine WF_append hwf1 rfl hres1 ?_ (Nat.le_refl _) rfl ?_ ?_
      · rw [hnf1]
        exact hwf.2.2.1 b hbmem
      · intro hor
        exact absurd (isLeaf_iff.mpr hor) hl
      · rw [arityOK_len (a :=
          ⟨s1.next_id, b.family_id, none, b.operation_kind, out, s1.clock, none, none⟩)
          (b := b) rfl hlen1]
        exact hwf.2.2.2.2.2.2.2 b hbmem
    obtain ⟨b0, hfind0, hbc0, hid0, hfam0, hop0, hpar0, hcr0, hca0, hlf0, hnlf0,
      hs0⟩ := compute_ok h
    have hfindnb : Store.find ⟨s1.blocks ++
        [⟨s1.next_id, b.family_id, none, b.operation_kind, out, s1.clock, none, none⟩],
        s1.next_id + 1, s1.next_family, s1.clock + 1⟩ s1.next_id =
        some ⟨s1.next_id, b.family_id, none, b.operation_kind, out, s1.clock, none, none⟩ := by
      exact find_append_fresh hwf1.1 rfl
    have hb0 : b0 = ⟨s1.next_id, b.family_id, none, b.operation_kind, out, s1.clock,
        none, none⟩ := by
      rw [hfindnb] at hfind0
      injection hfind0 with h0
      exact h0.symm
    have hbid' : b'.block_id = s1.next_id := by rw [hid0, hb0]
    have hblocks' : s'.blocks = s1.blocks ++ [b'] := by
      rw [hs0]
      show ((s1.blocks ++ [_]).map _) = _
      apply map_replace_append_last
      · rw [hbid']
      · intro x hx
        rw [hbid']
        exact Nat.ne_of_lt (hwf1.1 x hx)
    have hwf' : WF s' := (compute_post hwf2 h).1
    have hfam' : b'.family_id = b.family_id := by rw [hfam0, hb0]
    have hop' : b'.operation_kind = b.operation_kind := by rw [hop0, hb0]
    have hcomp' : b'.computed_at.isSome = true := by rw [hca0]; rfl
    have hni' : s'.next_id = s1.next_id + 1 := by rw [hs0]; simp [Store.setBlock]
    have hnf' : s'.next_family = s1.next_family := by rw [hs0]; simp [Store.setBlock]
    refine ⟨b, t1 ++ [b'], hfind, ?_, hwf', ?_, ?_, ?_, ?_, hfam', ?_, ?_⟩
    · rw [hblocks', hblocks1, List.append_assoc]
    · rw [hni']
      exact Nat.le_trans hle1 (Nat.le_succ _)
    · rw [hnf', hnf1]
    · intro x hx
      rcases List.mem_append.mp hx with hx1 | hx2
      · exact ht1 x hx1
      · rcases List.mem_singleton.mp hx2 with rfl
        refine ⟨?_, hcomp', ?_⟩
        · rw [hop']
          exact notLeaf_derived hl
        · rw [hbid']
          exact hle1
    · rw [hblocks']
      exact List.mem_append_right _ (List.mem_singleton_self _)
    · intro hder
      exact absurd (isLeaf_iff.mpr hder) hl
    · intro _
      refine ⟨?_, hop', hcomp'⟩
      rw [hbid']
      exact hle1

theorem replay_spec (oracle : Oracle) : ∀ fuel : Nat,
    (∀ s i b' s', WF s → replay oracle fuel s i = Except.ok (b', s') →
      ReplayOut s i b' s') ∧
    (∀ ids s out s', WF s →
      replayMany (fun st j => replay oracle fuel st j) s ids = Except.ok (out, s') →
      ManyOut s ids out s') := by
  intro fuel
  induction fuel with
  | zero =>
    have hz : ∀ s i b' s', WF s → replay oracle 0 s i = Except.ok (b', s') →
        ReplayOut s i b' s' := by
      intro s i b' s' _ h
      unfold replay at h
      cases h
    exact ⟨hz, replayMany_spec_of _ hz⟩
  | succ fuel ih =>
    have hstep := replay_spec_succ oracle fuel ih.2
    exact ⟨hstep, replayMany_spec_of _ hstep⟩

theorem recompute_post {oracle : Oracle} {s : Store} {i : Nat} {b' : Block}
    {s' : Store} (hwf : WF s)
    (h : Store.recompute oracle s i = Except.ok (b', s')) :
    ReplayOut s i b' s' ∧ ∃ b, s.find i = some b ∧ b.computed_at.isSome = true := by
  unfold Store.recompute at h
  split at h
  · cases h
  rename_i b hfind
  split at h
  · rename_i hc
    exact ⟨(replay_spec oracle _).1 s i b' s' hwf h, b, hfind, hc⟩
  · cases h

theorem smartAdd_WF {sim : SimilarityIndex} {oracle : Oracle} {s : Store} {d : KBD}
    {content : String} {ts : Nat} {d' : KBD} {s' : Store} (hwf : WF s)
    (h : KBD.smartAdd sim oracle s d content ts = Except.ok (d', s')) :
    WF s' := by
  unfold KBD.smartAdd at h
  dsimp only at h
  split at h
  · cases h
  rename_i nb s1 hcomp1
  have hwf1 : WF s1 := (compute_post (WF_create hwf content) hcomp1).1
  split at h
  · simp only [Except.ok.injEq, Prod.mk.injEq] at h
    rw [← h.2]
    exact hwf1
  rename_i o rest hsim
  split at h
  · cases h
  rename_i mb0 s2 hsum
  have hwf2 : WF s2 := WF_sum hwf1 hsum
  split at h
  · cases h
  rename_i mb s3 hcomp2
  have hwf3 : WF s3 := (compute_post hwf2 hcomp2).1
  simp only [Except.ok.injEq, Prod.mk.injEq] at h
  rw [← h.2]
  exact hwf3

theorem Reaches_WF : ∀ s, Reaches s → WF s := by
  intro s h
  induction h with
  | empty => decide
  | create s c _ ih => exact WF_create ih c
  | edit s i c b s' _ heq ih => exact WF_edit ih heq
  | sum s ids b s' _ heq ih => exact WF_sum ih heq
  | subtract s m n b s' _ heq ih => exact WF_subtract ih heq
  | compute oracle s i msg b s' _ heq ih => exact (compute_post ih heq).1
  | recompute oracle s i b s' _ heq ih =>
    obtain ⟨⟨b0, t, _, _, hwf', _⟩, _⟩ := recompute_post ih heq
    exact hwf'
  | smartAdd sim oracle s d content ts d' s' _ heq ih => exact smartAdd_WF ih heq

/-! ### Claim theorems -/

/-- Claim C3: for every block of every reachable store, the length of
`parent_ids` matches the arity rule of its `operation_kind` — exactly 0 for
create, exactly 1 for edit, 2 or more for sum (in the given input order, as
recorded by the constructor), and exactly 2 for subtract ordered
[minuend, subtrahend]; and `sum` fails with `InvalidArityError` when fewer
than two blocks are given. -/
theorem parent_arity_invariant :
    (∀ s, Reaches s → ∀ b ∈ s.blocks, arityOK b = true) ∧
    (∀ s ids, ids.length < 2 →
      Store.sum s ids = Except.error KBError.invalidArityError) := by
  constructor
  · intro s hr b hb
    exact (Reaches_WF s hr).2.2.2.2.2.2.2 b hb
  · intro s ids hlen
    unfold Store.sum
    rw [if_pos hlen]

/-- Witness for C3 at a concrete reachable store and a concrete 1-element
sum. -/
theorem parent_arity_invariant_witness :
    (∀ b ∈ (Store.create Store.empty "A").2.blocks, arityOK b = true) ∧
    Store.sum (Store.create Store.empty "A").2 [0] =
      Except.error KBError.invalidArityError :=
  ⟨parent_arity_invariant.1 _ (Reaches.create Store.empty "A" Reaches.empty),
   parent_arity_invariant.2 _ [0] (by decide)⟩

/-- Claim C4: family lineage — a block produced by `edit` keeps the source
block's `family_id`; blocks produced by `create`, `sum` and `subtract` get a
family id distinct from every existing block's (in particular from all their
parents'); and `compute`, the only mutation of an existing block, never
changes `family_id` (it is assigned once at construction). -/
theorem family_lineage :
    (∀ s i c b s' src, Store.edit s i c = Except.ok (b, s') →
      s.find i = some src → b.family_id = src.family_id) ∧
    (∀ s c, WF s → ∀ x ∈ s.blocks,
      ((Store.create s c).1).family_id ≠ x.family_id) ∧
    (∀ s ids b s', WF s → Store.sum s ids = Except.ok (b, s') →
      ∀ x ∈ s.blocks, b.family_id ≠ x.family_id) ∧
    (∀ s m n b s', WF s → Store.subtract s m n = Except.ok (b, s') →
      ∀ x ∈ s.blocks, b.family_id ≠ x.family_id) ∧
    (∀ oracle s i msg b' s' b, Store.compute oracle s i msg = Except.ok (b', s') →
      s.find i = some b → b'.family_id = b.family_id) := by
  refine ⟨?_, ?_, ?_, ?_, ?_⟩
  · intro s i c b s' src hedit hfind
    unfold Store.edit at hedit
    rw [hfind] at hedit
    simp only [Except.ok.injEq, Prod.mk.injEq] at hedit
    rw [← hedit.1]
  · intro s c hwf x hx
    exact Nat.ne_of_gt (hwf.2.2.1 x hx)
  · intro s ids b s' hwf hsum x hx
    unfold Store.sum at hsum
    split at hsum
    · cases hsum
    split at hsum
    · simp only [Except.ok.injEq, Prod.mk.injEq] at hsum
      rw [← hsum.1]
      exact Nat.ne_of_gt (hwf.2.2.1 x hx)
    · cases hsum
  · intro s m n b s' hwf hsub x hx
    unfold Store.subtract at hsub
    split at hsub
    · simp only [Except.ok.injEq, Prod.mk.injEq] at hsub
      rw [← hsub.1]
      exact Nat.ne_of_gt (hwf.2.2.1 x hx)
    · cases hsub
  · intro oracle s i msg b' s' b hcomp hfind
    obtain ⟨b0, hfind0, _, _, hfam0, _⟩ := compute_ok hcomp
    rw [hfind] at hfind0
    injection hfind0 with h0
    rw [hfam0, h0]

/-- Claim C5: `compute` is single-shot — a successful `compute` transitions
the block from uncomputed (`computed_at = none`) to computed, and on the
resulting store a second `compute` of the same block fails with
`AlreadyComputedError` for every oracle and message (so the Content Oracle is
never consulted again, and no state change is produced). -/
theorem compute_single_shot {oracle : Oracle} {s : Store} {i : Nat}
    {msg : Option String} {b' : Block} {s' : Store}
    (h : Store.compute oracle s i msg = Except.ok (b', s')) :
    (∃ b, s.find i = some b ∧ b.computed_at = none) ∧
    b'.computed_at.isSome = true ∧ s'.find i = some b' ∧
    (∀ oracle2 msg2, Store.compute oracle2 s' i msg2 =
      Except.error KBError.alreadyComputedError) := by
  obtain ⟨b, hfind, hbc, hid, _, _, _, _, hca, _, _, hs⟩ := compute_ok h
  have hbi : b'.block_id = i := by rw [hid, (find_mem hfind).2]
  have hfind' : s'.find i = some b' := by
    rw [hs]
    show (s.blocks.map _).find? _ = some b'
    exact find_map_replace_self hbi hfind
  refine ⟨⟨b, hfind, hbc⟩, by rw [hca]; rfl, hfind', ?_⟩
  intro oracle2 msg2
  unfold Store.compute
  rw [hfind']
  dsimp only
  rw [hca]
  rfl

/-- Claim C6: for every family f, `history_of_family` returns exactly the
blocks sharing family_id f, ordered by `created_at` ascending. -/
theorem history_of_family_spec (s : Store) (f : Nat) :
    (∀ b, b ∈ s.history_of_family f ↔ (b ∈ s.blocks ∧ b.family_id = f)) ∧
    List.Sorted (fun a b : Block => a.created_at ≤ b.created_at)
      (s.history_of_family f) := by
  constructor
  · intro b
    exact history_mem
  · unfold Store.history_of_family
    haveI : IsTotal Block (fun a b : Block => a.created_at ≤ b.created_at) :=
      ⟨fun a b => Nat.le_total _ _⟩
    haveI : IsTrans Block (fun a b : Block => a.created_at ≤ b.created_at) :=
      ⟨fun a b c => Nat.le_trans⟩
    exact List.sorted_insertionSort _ _

/-- Claim C2: `recompute` replays the ancestor DAG of a computed block —
the result store extends the input store (no existing block is mutated or
re-derived, so leaf content is never altered), every appended block is a
computed derived (sum/subtract) node with a fresh id (and, by well-formedness
of the result, its parents precede it: topological order), the returned
terminal block lives in the result store with the replayed block's family;
a leaf node is not recomputed (nothing is appended and an existing block is
returned), while a derived node yields a fresh computed block of the same
operation kind. -/
theorem recompute_replays {oracle : Oracle} {s : Store} {i : Nat}
    {b b' : Block} {s' : Store} (hwf : WF s) (hfind : s.find i = some b)
    (hok : Store.recompute oracle s i = Except.ok (b', s')) :
    ∃ t, s'.blocks = s.blocks ++ t ∧ WF s' ∧
      (∀ x ∈ t, (x.operation_kind = OpKind.sum ∨ x.operation_kind = OpKind.subtract) ∧
        x.computed_at.isSome = true ∧ s.next_id ≤ x.block_id) ∧
      b' ∈ s'.blocks ∧ b'.family_id = b.family_id ∧
      ((b.operation_kind = OpKind.create ∨ b.operation_kind = OpKind.edit) →
        t = [] ∧ b' ∈ s.blocks) ∧
      ((b.operation_kind = OpKind.sum ∨ b.operation_kind = OpKind.subtract) →
        s.next_id ≤ b'.block_id ∧ b'.operation_kind = b.operation_kind ∧
        b'.computed_at.isSome = true) := by
  obtain ⟨⟨b0, t, hfind0, hblocks, hwf', _, _, ht, hmem, hfam, hleaf, hder⟩, _⟩ :=
    recompute_post hwf hok
  rw [hfind] at hfind0
  injection hfind0 with h0
  subst h0
  exact ⟨t, hblocks, hwf', ht, hmem, hfam, hleaf, hder⟩

/-- Claim C10: for a computed derived block, `recompute` returns a terminal
block with the same `family_id` and a fresh block id (in particular different
from the input block's id). -/
theorem recompute_preserves_family {oracle : Oracle} {s : Store} {i : Nat}
    {b b' : Block} {s' : Store} (hwf : WF s) (hfind : s.find i = some b)
    (hder : b.operation_kind = OpKind.sum ∨ b.operation_kind = OpKind.subtract)
    (hok : Store.recompute oracle s i = Except.ok (b', s')) :
    b'.family_id = b.family_id ∧ s.next_id ≤ b'.block_id ∧
    b'.block_id ≠ b.block_id := by
  obtain ⟨⟨b0, t, hfind0, _, _, _, _, _, _, hfam, _, hder'⟩, _⟩ :=
    recompute_post hwf hok
  rw [hfind] at hfind0
  injection hfind0 with h0
  subst h0
  obtain ⟨hle, _, _⟩ := hder' hder
  refine ⟨hfam, hle, ?_⟩
  have hblt : b.block_id < s.next_id := hwf.1 b (find_mem hfind).1
  exact Nat.ne_of_gt (Nat.lt_of_lt_of_le hblt hle)

theorem compute_derived {oracle : Oracle} {s : Store} {i : Nat}
    {msg : Option String} {b' : Block} {s' : Store}
    (h : Store.compute oracle s i msg = Except.ok (b', s'))
    {b : Block} (hfind : s.find i = some b) (hnl : b.isLeaf = false) :
    ∃ inputs txt w, s.parentInputs b.parent_ids = some inputs ∧
      oracle b.operation_kind inputs = some (txt, w) ∧
      b'.content = some txt := by
  unfold Store.compute at h
  rw [hfind] at h
  dsimp only at h
  split at h
  · cases h
  split at h
  · rename_i hl
    rw [hnl] at hl
    cases hl
  split at h
  · cases h
  rename_i inputs hpi
  split at h
  · cases h
  rename_i v txt w ho
  simp only [Except.ok.injEq, Prod.mk.injEq] at h
  refine ⟨inputs, txt, w, hpi, ho, ?_⟩
  rw [← h.1]

/-- Claim C1: recency-priority law — given two computed blocks whose contents
state contradicting facts (they assign different values to the same slot under
an abstract fact reading), summing them and computing the sum through an
oracle satisfying the recency contract yields merged content that states the
value of whichever input block has the later `computed_at` (ties broken by
later `created_at`) and not the earlier one's value.  Instantiated by the
witness on the recorded run: k1 ("founded in 2222", computed first) summed
with k6 ("founded in 1868", computed later) yields content stating 1868. -/
theorem recency_priority {sem : FactSem} {oracle : Oracle}
    (hrec : OracleRecency sem oracle) {s : Store} (hwf : WF s)
    {i1 i2 : Nat} {b1 b2 : Block}
    (hf1 : s.find i1 = some b1) (hf2 : s.find i2 = some b2)
    {c1 c2 : String} {t1 t2 : Nat}
    (hc1 : b1.content = some c1) (hc2 : b2.content = some c2)
    (ht1 : b1.computed_at = some t1) (ht2 : b2.computed_at = some t2)
    {slot v1 v2 : String}
    (hm1 : (slot, v1) ∈ sem c1) (hm2 : (slot, v2) ∈ sem c2) (hne : v1 ≠ v2)
    (hlater : laterKey (t2, b2.created_at) (t1, b1.created_at))
    {nb : Block} {s1 : Store}
    (hsum : Store.sum s [i1, i2] = Except.ok (nb, s1))
    {msg : Option String} {nb' : Block} {s2 : Store}
    (hcomp : Store.compute oracle s1 nb.block_id msg = Except.ok (nb', s2)) :
    ∃ txt, nb'.content = some txt ∧ (slot, v2) ∈ sem txt ∧
      (slot, v1) ∉ sem txt := by
  unfold Store.sum at hsum
  split at hsum
  · cases hsum
  split at hsum
  swap
  · cases hsum
  simp only [Except.ok.injEq, Prod.mk.injEq] at hsum
  obtain ⟨hnb, hs1⟩ := hsum
  have hnbid : nb.block_id = s.next_id := by rw [← hnb]
  have hnbpar : nb.parent_ids = [i1, i2] := by rw [← hnb]
  have hnbop : nb.operation_kind = OpKind.sum := by rw [← hnb]
  have hs1blocks : s1.blocks = s.blocks ++ [nb] := by rw [← hs1, ← hnb]
  have hs1f1 : s1.find i1 = some b1 := by
    unfold Store.find
    rw [hs1blocks]
    exact find_append_left hf1
  have hs1f2 : s1.find i2 = some b2 := by
    unfold Store.find
    rw [hs1blocks]
    exact find_append_left hf2
  have hfindnb : s1.find nb.block_id = some nb := by
    unfold Store.find
    rw [hs1blocks]
    exact find_append_fresh (fun x hx => hnbid ▸ hwf.1 x hx) rfl
  have hnl : nb.isLeaf = false := by
    unfold Block.isLeaf
    rw [hnbop]
    rfl
  obtain ⟨inputs, txt, w, hpi, ho, hcont⟩ := compute_derived hcomp hfindnb hnl
  rw [hnbpar] at hpi
  have hpi' : s1.parentInputs [i1, i2] =
      some [(c1, t1, b1.created_at), (c2, t2, b2.created_at)] := by
    simp only [Store.parentInputs, hs1f1, hs1f2, hc1, hc2, ht1, ht2]
  rw [hpi'] at hpi
  injection hpi with hinp
  subst hinp
  rw [hnbop] at ho
  obtain ⟨h2in, h1out⟩ :=
    (hrec _ _ txt w ho slot v1 v2 hm1 hm2 hne).1 hlater
  exact ⟨txt, hcont, h2in, h1out⟩

/-- Claim C7: document sum postcondition — the resulting `block_refs` is
doc_a's refs in order followed by exactly those of doc_b's refs not already
present (membership is the union, the result is duplicate-free when the
inputs are, and the appended tail is an order-preserving selection of doc_b's
refs disjoint from doc_a's), and the fresh document's log consists of exactly
one entry recording operation sum, the resulting `block_refs` snapshot, the
timestamp, and the parent document ids [doc_a.id, doc_b.id]. -/
theorem doc_sum_spec (a b : KBD) (doc_id ts : Nat)
    (ha : a.block_refs.Nodup) (hb : b.block_refs.Nodup) :
    (∀ j, j ∈ (KBD.sumDoc a b doc_id ts).block_refs ↔
      (j ∈ a.block_refs ∨ j ∈ b.block_refs)) ∧
    (KBD.sumDoc a b doc_id ts).block_refs.Nodup ∧
    (∃ t, (KBD.sumDoc a b doc_id ts).block_refs = a.block_refs ++ t ∧
      t.Sublist b.block_refs ∧ ∀ j ∈ t, j ∉ a.block_refs) ∧
    (KBD.sumDoc a b doc_id ts).operations =
      [⟨DocOp.sum, [], (KBD.sumDoc a b doc_id ts).block_refs, ts,
        [a.kbd_id, b.kbd_id]⟩] := by
  refine ⟨?_, ?_, ?_, rfl⟩
  · intro j
    show j ∈ a.block_refs ++ b.block_refs.filter _ ↔ _
    rw [List.mem_append, List.mem_filter]
    constructor
    · rintro (hj | ⟨hj, _⟩)
      · exact Or.inl hj
      · exact Or.inr hj
    · rintro (hj | hj)
      · exact Or.inl hj
      · by_cases hja : j ∈ a.block_refs
        · exact Or.inl hja
        · exact Or.inr ⟨hj, by simp [hja]⟩
  · show (a.block_refs ++ b.block_refs.filter _).Nodup
    refine List.Nodup.append ha (List.Nodup.filter _ hb) ?_
    intro x hxa hxf
    have := (List.mem_filter.mp hxf).2
    simp [hxa] at this
  · refine ⟨b.block_refs.filter (fun i => !(a.block_refs.contains i)), rfl,
      List.filter_sublist _, ?_⟩
    intro j hj
    have := (List.mem_filter.mp hj).2
    intro hja
    simp [hja] at this

/-- Claim C8: document add is idempotent on `block_refs` — after adding a
block id already present, `block_refs` is unchanged while the log still grows
by exactly one entry recording the add of that id; a new id is appended at the
end; and the outcome depends only on the id being resolvable, never on any
stored content (no semantic dedup against overlapping content). -/
theorem doc_add_idempotent {s : Store} {d : KBD} {i : Nat} {ts1 ts2 : Nat}
    {d1 d2 : KBD}
    (h1 : KBD.addBlock s d i ts1 = Except.ok d1)
    (h2 : KBD.addBlock s d1 i ts2 = Except.ok d2) :
    d2.block_refs = d1.block_refs ∧
    d2.operations.length = d1.operations.length + 1 ∧
    (∃ e, d2.operations.getLast? = some e ∧ e.operation = DocOp.add ∧
      e.kbb = [i]) ∧
    (i ∉ d.block_refs → d1.block_refs = d.block_refs ++ [i]) ∧
    (i ∈ d.block_refs → d1.block_refs = d.block_refs) ∧
    (∀ s2 : Store, (s2.find i).isSome = true →
      KBD.addBlock s2 d i ts1 = Except.ok d1) := by
  unfold KBD.addBlock at h1 h2
  split at h1
  · cases h1
  rename_i x1 hf1
  split at h2
  · cases h2
  rename_i x2 hf2
  simp only [Except.ok.injEq] at h1 h2
  have hid1 : i ∈ d1.block_refs := by
    rw [← h1]
    by_cases hc : d.block_refs.contains i
    · rw [if_pos hc]
      simpa using hc
    · rw [if_neg hc]
      exact List.mem_append_right _ (List.mem_singleton_self _)
  have hd2refs : d2.block_refs = d1.block_refs := by
    rw [← h2, if_pos (by simpa using hid1)]
  have hd2ops : d2.operations = d1.operations ++
      [⟨DocOp.add, [i], d1.block_refs, ts2, []⟩] := by
    rw [← h2, if_pos (by simpa using hid1)]
  refine ⟨hd2refs, by rw [hd2ops]; simp, ?_, ?_, ?_, ?_⟩
  · refine ⟨⟨DocOp.add, [i], d1.block_refs, ts2, []⟩, ?_, rfl, rfl⟩
    rw [hd2ops]
    exact List.getLast?_concat _
  · intro hni
    rw [← h1, if_neg (by simpa using hni)]
  · intro hyi
    rw [← h1, if_pos (by simpa using hyi)]
  · intro s2 hs2
    cases hf : s2.find i with
    | none => rw [hf] at hs2; cases hs2
    | some x =>
      unfold KBD.addBlock
      rw [hf]
      rw [← h1]

/-- Claim C9: smart_add scenario — when the Similarity Index reports exactly
one existing block as overlapping the new text, `smart_add` removes that one
block from `block_refs` (the block's record survives in the Block Store),
appends exactly one freshly numbered merged block (so the reference count is
unchanged), and appends one log entry recording operation smart_add and the
merged id; and every log entry's operation kind is one of
{sum, add, smart_add}. -/
theorem smart_add_spec {sim : SimilarityIndex} {oracle : Oracle} {s : Store}
    {d : KBD} {content : String} {ts : Nat} {d' : KBD} {s' : Store} {o : Nat}
    (hwf : WF s) (hnd : d.block_refs.Nodup)
    (hrefs : ∀ j ∈ d.block_refs, j < s.next_id)
    (hmem : o ∈ d.block_refs)
    (hsim : sim content (d.block_refs.filterMap (fun i => s.find i)) = [o])
    (hok : KBD.smartAdd sim oracle s d content ts = Except.ok (d', s')) :
    ∃ m, m ∉ d.block_refs ∧
      (∀ j, j ∈ d'.block_refs ↔ ((j ∈ d.block_refs ∧ j ≠ o) ∨ j = m)) ∧
      d'.block_refs.length = d.block_refs.length ∧
      (∃ pre, d'.block_refs = pre ++ [m] ∧ pre.Sublist d.block_refs ∧ o ∉ pre) ∧
      (∃ c ∈ s'.blocks, c.block_id = o) ∧
      (∃ e, d'.operations = d.operations ++ [e] ∧
        e.operation = DocOp.smart_add ∧ e.kbb = [m]) ∧
      (∀ e ∈ d'.operations, e.operation = DocOp.sum ∨ e.operation = DocOp.add ∨
        e.operation = DocOp.smart_add) := by
  unfold KBD.smartAdd at hok
  dsimp only at hok
  split at hok
  · cases hok
  rename_i nb s1 hcomp1
  rw [hsim] at hok
  dsimp only at hok
  split at hok
  · cases hok
  rename_i mb0 s2 hsum
  split at hok
  · cases hok
  rename_i mb s3 hcomp2
  simp only [Except.ok.injEq, Prod.mk.injEq] at hok
  obtain ⟨hd', hs'⟩ := hok
  have hwf1 : WF s1 := (compute_post (WF_create hwf content) hcomp1).1
  obtain ⟨b0, hfind0, _, hid0, _⟩ := compute_ok hcomp1
  have hnbid : nb.block_id = s.next_id := by
    rw [hid0, (find_mem hfind0).2]
    rfl
  have hcp1 := compute_post (WF_create hwf content) hcomp1
  have hs1ni : s1.next_id = s.next_id + 1 := hcp1.2.1
  have hmap1 : List.map Block.block_id s1.blocks =
      List.map Block.block_id s.blocks ++ [s.next_id] := by
    rw [hcp1.2.2.2.1]
    show List.map _ (s.blocks ++ [_]) = _
    rw [List.map_append]
    rfl
  have hsumKeep := hsum
  unfold Store.sum at hsum
  split at hsum
  · cases hsum
  split at hsum
  swap
  · cases hsum
  rename_i hlen hall
  simp only [Except.ok.injEq, Prod.mk.injEq] at hsum
  obtain ⟨hmb0, hs2⟩ := hsum
  have hmb0id : mb0.block_id = s1.next_id := by rw [← hmb0]
  have hs2blocks : s2.blocks = s1.blocks ++ [mb0] := by rw [← hs2, ← hmb0]
  have hwf2 : WF s2 := WF_sum hwf1 hsumKeep
  have hcp2 := compute_post hwf2 hcomp2
  obtain ⟨b0', hfind0', _, hid0', _⟩ := compute_ok hcomp2
  have hmbid : mb.block_id = mb0.block_id := by
    rw [hid0', (find_mem hfind0').2]
  have hm : mb.block_id = s.next_id + 1 := by rw [hmbid, hmb0id, hs1ni]
  have hmnot : mb.block_id ∉ d.block_refs := by
    intro hc
    have := hrefs _ hc
    rw [hm] at this
    omega
  have hmap3 : List.map Block.block_id s3.blocks =
      List.map Block.block_id s2.blocks := hcp2.2.2.2.1
  refine ⟨mb.block_id, hmnot, ?_, ?_, ?_, ?_, ?_, ?_⟩
  · intro j
    rw [← hd']
    show j ∈ d.block_refs.filter _ ++ [mb.block_id] ↔ _
    rw [List.mem_append, List.mem_filter, List.mem_singleton]
    constructor
    · rintro (⟨hj, hbo⟩ | hj)
      · refine Or.inl ⟨hj, ?_⟩
        simpa using hbo
      · exact Or.inr hj
    · rintro (⟨hj, hbo⟩ | hj)
      · exact Or.inl ⟨hj, by simpa using hbo⟩
      · exact Or.inr hj
  · rw [← hd']
    show (d.block_refs.filter _ ++ [mb.block_id]).length = _
    rw [List.length_append]
    have h1 : d.block_refs.filter (fun i => !([o].contains i)) =
        d.block_refs.filter (fun x => x != o) := by
      apply List.filter_congr
      intro x _
      by_cases hx : x = o <;> simp [hx]
    have h2 : (d.block_refs.filter (fun i => !([o].contains i))).length =
        d.block_refs.length - 1 := by
      rw [h1, ← List.Nodup.erase_eq_filter hnd o]
      exact List.length_erase_of_mem hmem
    have h3 : 0 < d.block_refs.length := by
      cases hl : d.block_refs with
      | nil => rw [hl] at hmem; cases hmem
      | cons a t => simp [hl]
    rw [h2]
    simp only [List.length_singleton]
    omega
  · refine ⟨d.block_refs.filter (fun i => !([o].contains i)), ?_, ?_, ?_⟩
    · rw [← hd']
    · exact List.filter_sublist _
    · intro hc
      have := (List.mem_filter.mp hc).2
      simp at this
  · have hfos1 : (s1.find o).isSome = true := by
      have := List.all_eq_true.mp hall o (by simp)
      exact this
    cases hfo : s1.find o with
    | none => rw [hfo] at hfos1; cases hfos1
    | some x =>
      have hxm : x ∈ s1.blocks := (find_mem hfo).1
      have hxid : x.block_id = o := (find_mem hfo).2
      have ho1 : o ∈ List.map Block.block_id s1.blocks :=
        List.mem_map.mpr ⟨x, hxm, hxid⟩
      have ho3 : o ∈ List.map Block.block_id s3.blocks := by
        rw [hmap3, hs2blocks, List.map_append]
        exact List.mem_append_left _ ho1
      obtain ⟨c, hc, hcid⟩ := List.mem_map.mp ho3
      rw [← hs']
      exact ⟨c, hc, hcid⟩
  · refine ⟨⟨DocOp.smart_add, [mb.block_id], d'.block_refs, ts, []⟩, ?_, rfl, rfl⟩
    rw [← hd']
  · intro e _
    cases e.operation
    · exact Or.inl rfl
    · exact Or.inr (Or.inl rfl)
    · exact Or.inr (Or.inr rfl)

theorem laterKey_asymm {p q : Nat × Nat} (h : laterKey p q) : ¬ laterKey q p := by
  unfold laterKey at h ⊢
  omega

theorem demoSem_mem {t slot v : String} (h : (slot, v) ∈ demoSem t) :
    slot = "founded" ∧ (v = "2222" ∨ v = "1868") ∧ foundedOf t = some v := by
  unfold foundedOf
  unfold demoSem at h ⊢
  split_ifs at h ⊢ <;> simp_all

theorem demoOracle_recency : OracleRecency demoSem demoOracle := by
  intro x y txt w ho slot vx vy hx hy hne
  obtain ⟨hslot, hvx, hfx⟩ := demoSem_mem hx
  obtain ⟨_, hvy, hfy⟩ := demoSem_mem hy
  unfold demoOracle at ho
  dsimp only at ho
  rw [hfx, hfy] at ho
  dsimp only at ho
  simp only [Option.some.injEq, Prod.mk.injEq] at ho
  obtain ⟨htxt, _⟩ := ho
  subst hslot
  constructor
  · intro hlater
    have hb : laterKeyB y.2 x.2 = true := decide_eq_true hlater
    rw [if_neg hne, hb] at htxt
    simp only [if_true] at htxt
    rcases hvy with rfl | rfl
    · rw [if_neg (by decide)] at htxt
      rcases hvx with rfl | rfl
      · exact absurd rfl hne
      · rw [← htxt]
        refine ⟨by decide, by decide⟩
    · rw [if_pos rfl] at htxt
      rcases hvx with rfl | rfl
      · rw [← htxt]
        refine ⟨by decide, by decide⟩
      · exact absurd rfl hne
  · intro hlater
    have hb : laterKeyB y.2 x.2 = false :=
      decide_eq_false (laterKey_asymm hlater)
    rw [if_neg hne, hb] at htxt
    simp only [Bool.false_eq_true, if_false] at htxt
    rcases hvx with rfl | rfl
    · rw [if_neg (by decide)] at htxt
      rcases hvy with rfl | rfl
      · exact absurd rfl hne
      · rw [← htxt]
        refine ⟨by decide, by decide⟩
    · rw [if_pos rfl] at htxt
      rcases hvy with rfl | rfl
      · rw [← htxt]
        refine ⟨by decide, by decide⟩
      · exact absurd rfl hne

/-- Witness for C1 on the recorded run: k1 ("founded in 2222", computed at 2)
summed with k6 ("founded in 1868", computed at 3) and computed through the
concrete recency oracle yields content stating 1868 and not 2222. -/
theorem recency_priority_witness :
    ∃ txt, nbW2.content = some txt ∧ ("founded", "1868") ∈ demoSem txt ∧
      ("founded", "2222") ∉ demoSem txt :=
  @recency_priority demoSem demoOracle demoOracle_recency sC1 (by decide)
    0 1 b1w b6w rfl rfl k1text k6text 2 3 rfl rfl rfl rfl
    "founded" "2222" "1868" (by decide) (by decide) (by decide) (by decide)
    nbW s1W rfl none nbW2 s2W rfl

/-- Witness for C2: recomputing the computed sum dW over the store sW. -/
theorem recompute_replays_witness :
    ∃ t, sWr.blocks = sW.blocks ++ t ∧ WF sWr ∧
      (∀ x ∈ t, (x.operation_kind = OpKind.sum ∨ x.operation_kind = OpKind.subtract) ∧
        x.computed_at.isSome = true ∧ sW.next_id ≤ x.block_id) ∧
      k13W ∈ sWr.blocks ∧ k13W.family_id = dW.family_id ∧
      ((dW.operation_kind = OpKind.create ∨ dW.operation_kind = OpKind.edit) →
        t = [] ∧ k13W ∈ sW.blocks) ∧
      ((dW.operation_kind = OpKind.sum ∨ dW.operation_kind = OpKind.subtract) →
        sW.next_id ≤ k13W.block_id ∧ k13W.operation_kind = dW.operation_kind ∧
        k13W.computed_at.isSome = true) :=
  @recompute_replays demoOracle sW 2 dW k13W sWr (by decide) rfl rfl

/-- Witness for C10: the recomputed terminal keeps dW's family and gets a
fresh id. -/
theorem recompute_preserves_family_witness :
    k13W.family_id = dW.family_id ∧ sW.next_id ≤ k13W.block_id ∧
    k13W.block_id ≠ dW.block_id :=
  @recompute_preserves_family demoOracle sW 2 dW k13W sWr (by decide) rfl
    (Or.inl rfl) rfl

/-- Witness for C4 on the concrete store sW: edit keeps family 0, create, sum
and subtract get families distinct from every existing one, and compute keeps
the family. -/
theorem family_lineage_witness :
    editWb.family_id = aW.family_id ∧
    (∀ x ∈ sW.blocks, ((Store.create sW "N").1).family_id ≠ x.family_id) ∧
    (∀ x ∈ sW.blocks, sumWb.family_id ≠ x.family_id) ∧
    (∀ x ∈ sW.blocks, subWb.family_id ≠ x.family_id) ∧
    compWb.family_id = sumWb.family_id :=
  ⟨family_lineage.1 sW 0 "B" editWb editWs aW rfl rfl,
   family_lineage.2.1 sW "N" (by decide),
   family_lineage.2.2.1 sW [0, 1] sumWb sumWs (by decide) rfl,
   family_lineage.2.2.2.1 sW 2 1 subWb subWs (by decide) rfl,
   family_lineage.2.2.2.2 demoOracle sumWs 3 none compWb compWs sumWb rfl rfl⟩

/-- Witness for C5: computing the uncomputed leaf once succeeds, and every
second compute on the result fails with `AlreadyComputedError` for every
oracle. -/
theorem compute_single_shot_witness :
    (∃ b, s0W.find 0 = some b ∧ b.computed_at = none) ∧
    leafWc.computed_at.isSome = true ∧ s5W.find 0 = some leafWc ∧
    (∀ oracle2 msg2, Store.compute oracle2 s5W 0 msg2 =
      Except.error KBError.alreadyComputedError) :=
  @compute_single_shot demoOracle s0W 0 none leafWc s5W rfl

/-- Witness for C7: summing the concrete documents d1W = [0, 1] and
d2W = [1, 2]. -/
theorem doc_sum_spec_witness :
    (∀ j, j ∈ (KBD.sumDoc d1W d2W 2 9).block_refs ↔
      (j ∈ d1W.block_refs ∨ j ∈ d2W.block_refs)) ∧
    (KBD.sumDoc d1W d2W 2 9).block_refs.Nodup ∧
    (∃ t, (KBD.sumDoc d1W d2W 2 9).block_refs = d1W.block_refs ++ t ∧
      t.Sublist d2W.block_refs ∧ ∀ j ∈ t, j ∉ d1W.block_refs) ∧
    (KBD.sumDoc d1W d2W 2 9).operations =
      [⟨DocOp.sum, [], (KBD.sumDoc d1W d2W 2 9).block_refs, 9,
        [d1W.kbd_id, d2W.kbd_id]⟩] :=
  doc_sum_spec d1W d2W 2 9 (by decide) (by decide)

/-- Witness for C8: adding block 1 to the document [0] twice over the store
sW. -/
theorem doc_add_idempotent_witness :
    dAddW2.block_refs = dAddW1.block_refs ∧
    dAddW2.operations.length = dAddW1.operations.length + 1 ∧
    (∃ e, dAddW2.operations.getLast? = some e ∧ e.operation = DocOp.add ∧
      e.kbb = [1]) ∧
    (1 ∉ dAddW.block_refs → dAddW1.block_refs = dAddW.block_refs ++ [1]) ∧
    (1 ∈ dAddW.block_refs → dAddW1.block_refs = dAddW.block_refs) ∧
    (∀ s2 : Store, (s2.find 1).isSome = true →
      KBD.addBlock s2 dAddW 1 5 = Except.ok dAddW1) :=
  @doc_add_idempotent sW dAddW 1 5 6 dAddW1 dAddW2 rfl rfl

/-- Witness for C9: smart-adding "new text" to the document [0, 1] when the
concrete Similarity Index reports exactly block 0 as overlapping. -/
theorem smart_add_spec_witness :
    ∃ m, m ∉ d9W.block_refs ∧
      (∀ j, j ∈ d9Wr.block_refs ↔ ((j ∈ d9W.block_refs ∧ j ≠ 0) ∨ j = m)) ∧
      d9Wr.block_refs.length = d9W.block_refs.length ∧
      (∃ pre, d9Wr.block_refs = pre ++ [m] ∧ pre.Sublist d9W.block_refs ∧
        0 ∉ pre) ∧
      (∃ c ∈ s9W.blocks, c.block_id = 0) ∧
      (∃ e, d9Wr.operations = d9W.operations ++ [e] ∧
        e.operation = DocOp.smart_add ∧ e.kbb = [m]) ∧
      (∀ e ∈ d9Wr.operations, e.operation = DocOp.sum ∨ e.operation = DocOp.add ∨
        e.operation = DocOp.smart_add) :=
  @smart_add_spec demoSim demoOracle sW d9W "new text" 7 d9Wr s9W 0
    (by decide) (by decide) (by decide) (by decide) rfl rfl

end KBGit
